import Mathlib

/-!
# Verification of the silvaConnect connection / cache / recovery pipeline

A shallow embedding of the core of `src/lib/silvaConnect.js`:

* the anti-delete message cache (`messageCache`, a JS `Map` with
  insertion-order eviction, lines 240-241 and 429-436),
* the single-flight message dispatch queue (`processMessageQueue`,
  lines 349-373 and the `messages.upsert` handler, lines 420-442),
* the deletion-recovery pipeline (`messages.update` handler,
  lines 445-464, `handleDeletedMessage`, lines 467-518, and
  `handleMediaRecovery`, lines 521-554),
* the connection-close handler (lines 292-327),
* the status-saver media download (`saveMediaToDisk`, lines 137-172),
* the memory monitor (lines 602-607).

JS `Map`s are modelled as association lists in insertion order (head =
first inserted key still present); each entry additionally carries a
ghost insertion counter `time` so that "chronologically oldest" is
expressible.  `Map.set` on an existing key keeps the entry's position
(and hence its ghost time), exactly like the JS runtime.  Machine
numbers that matter (`Date.now()`, byte counts, sizes) are `Nat`;
the backoff delay, which JS computes with `Math.pow(1.5, _)` on values
that are exactly representable, is modelled over `ℚ`.
-/

set_option maxRecDepth 8000

namespace Silva

/-- `MAX_CACHE` (silvaConnect.js line 241). -/
def MAX_CACHE : ℕ := 1000

/-- `MAX_RECONNECT_ATTEMPTS` (line 177). -/
def MAX_RECONNECT_ATTEMPTS : ℕ := 10

/-- `RECONNECT_DELAY` in milliseconds (line 178). -/
def RECONNECT_DELAY : ℚ := 5000

/-- The growth base `1.5` of the backoff (line 317). -/
def BACKOFF_GROWTH : ℚ := 3 / 2

/-- The hard delay cap `60000` ms (line 317). -/
def DELAY_CAP : ℚ := 60000

/-- `DELETE_PROCESS_INTERVAL` in milliseconds (line 446). -/
def DELETE_PROCESS_INTERVAL : ℕ := 2000

/-- The memory-monitor warning threshold `500 * 1024 * 1024` bytes (line 604). -/
def WARN_HEAP_BYTES : ℕ := 500 * 1024 * 1024

/-- The `50 * 1024 * 1024` byte limit in `saveMediaToDisk` (line 148). -/
def MEDIA_SIZE_LIMIT : ℕ := 50 * 1024 * 1024

/-! ## The message cache (a JS `Map` in insertion order) -/

/-- One entry of the JS `Map`: key, value, and a ghost insertion counter
recording when the key was first inserted (JS `Map.set` on an existing key
keeps the entry's position, i.e. its original insertion rank). -/
structure TEntry (K V : Type) where
  key : K
  val : V
  time : ℕ
deriving DecidableEq, Repr

/-- A JS `Map` with its entries in insertion order (head = oldest key) and
the ghost clock used to stamp fresh insertions. -/
structure TCache (K V : Type) where
  entries : List (TEntry K V)
  clock : ℕ
deriving DecidableEq, Repr

/-- `new Map()` (line 240). -/
def emptyTC {K V : Type} : TCache K V := ⟨[], 0⟩

/-- `map.set(k, v)`: overwrite in place if the key exists (keeping its
position and ghost time), otherwise append at the end. -/
def tSet {K V : Type} [DecidableEq K] (c : TCache K V) (k : K) (v : V) :
    TCache K V :=
  if c.entries.any (fun e => decide (e.key = k)) then
    ⟨c.entries.map (fun e => if e.key = k then ⟨k, v, e.time⟩ else e), c.clock⟩
  else
    ⟨c.entries ++ [⟨k, v, c.clock⟩], c.clock + 1⟩

/-- `map.get(k)` (returns the value, or `none` when absent). -/
def tGet {K V : Type} [DecidableEq K] (c : TCache K V) (k : K) : Option V :=
  (c.entries.find? (fun e => decide (e.key = k))).map (fun e => e.val)

/-- The cache-insertion block of the `messages.upsert` handler
(lines 431-435):
`messageCache.set(cacheKey, msg); if (messageCache.size > MAX_CACHE) {
  const firstKey = messageCache.keys().next().value;
  messageCache.delete(firstKey); }`.
`Map.delete(firstKey)` removes the entry holding that key; keys in a JS
`Map` are unique, so this is the head entry. -/
def cachePut {K V : Type} [DecidableEq K] (c : TCache K V) (k : K) (v : V) :
    TCache K V :=
  let c' := tSet c k v
  if MAX_CACHE < c'.entries.length then
    match c'.entries.head? with
    | some fe => ⟨c'.entries.filter (fun e => decide (e.key ≠ fe.key)), c'.clock⟩
    | none => c'
  else c'

/-! ## Messages and the ingress cache step -/

/-- A Baileys message key (`msg.key`). -/
structure WAKey where
  remoteJid : String
  id : String
  participant : Option String
  fromMe : Bool
deriving DecidableEq, Repr

/-- The media kinds handled by the recovery pipeline (lines 499-505). -/
inductive MediaType
  | image
  | video
  | audio
  | sticker
  | document
deriving DecidableEq, Repr

/-- `mType.replace("Message", "")`, the send-payload field name (line 537). -/
def mediaFieldName : MediaType → String
  | .image => "image"
  | .video => "video"
  | .audio => "audio"
  | .sticker => "sticker"
  | .document => "document"

/-- The payload of a cached media message: the chunk sizes the streaming
download will yield, plus the optional metadata fields read by
`handleMediaRecovery` (lines 540-544).  `failMsg = some e` models
`downloadContentFromMessage` / the stream throwing with message `e`. -/
structure MediaPayload where
  chunks : List ℕ
  caption : Option String
  mimetype : Option String
  filename : Option String
  failMsg : Option String
deriving DecidableEq, Repr

/-- The single content variant of a message (`Object.keys(msg.message)[0]`
dispatch in `handleDeletedMessage`, line 494). -/
inductive MContent
  | conversation (text : String)
  | extendedTextMessage (text : String)
  | mediaMessage (mt : MediaType) (payload : MediaPayload)
  | otherMessage (name : String)
deriving DecidableEq, Repr

/-- A message as stored in the cache: its key and optional content
(`msg.message` may be absent, line 429 / 473). -/
structure WAMessage where
  key : WAKey
  message : Option MContent
deriving DecidableEq, Repr

/-- One message's effect on the cache inside the `messages.upsert` handler
(lines 429-436): only messages that carry content are cached, under the
key `` `${msg.key.remoteJid}-${msg.key.id}` ``. -/
def cacheMessagesStep (c : TCache String WAMessage) (msg : WAMessage) :
    TCache String WAMessage :=
  match msg.message with
  | none => c
  | some _ => cachePut c (msg.key.remoteJid ++ "-" ++ msg.key.id) msg

/-! ## Size bound of the cache (C1) -/

lemma tSet_length {K V : Type} [DecidableEq K] (c : TCache K V) (k : K) (v : V) :
    (tSet c k v).entries.length ≤ c.entries.length + 1 := by
  unfold tSet
  split
  · simp
  · simp

lemma cachePut_length {K V : Type} [DecidableEq K] (c : TCache K V) (k : K)
    (v : V) (h : c.entries.length ≤ MAX_CACHE) :
    (cachePut c k v).entries.length ≤ MAX_CACHE := by
  unfold cachePut
  have hlen := tSet_length c k v
  by_cases hov : MAX_CACHE < (tSet c k v).entries.length
  · rcases hl : (tSet c k v).entries with _ | ⟨fe, t⟩
    · simp [hl] at hov
    · simp only [hl, if_pos (hl ▸ hov), List.head?_cons]
      have hfe : (decide (fe.key ≠ fe.key)) = false := by simp
      rw [List.filter_cons, hfe]
      simp only [Bool.false_eq_true, if_neg (by simp : ¬False)]
      have h1 : (List.filter (fun e => decide (e.key ≠ fe.key)) t).length ≤ t.length :=
        List.length_filter_le _ _
      have h2 : t.length + 1 ≤ c.entries.length + 1 := by
        have := hl ▸ hlen
        simpa using this
      omega
  · simp only [if_neg hov]
    omega

/-- **C1**: for every sequence of cache insertions performed on ingress of
messages (only those carrying content are `put`), the recovery cache holds
at most `MAX_CACHE` entries after each insertion completes its eviction
step — i.e. after processing any list of ingress messages from the empty
cache the size is `≤ MAX_CACHE`, and every intermediate observation point
is itself such a fold over a prefix. -/
theorem cache_size_bounded (msgs : List WAMessage) :
    (msgs.foldl cacheMessagesStep emptyTC).entries.length ≤ MAX_CACHE := by
  suffices h : ∀ (c : TCache String WAMessage), c.entries.length ≤ MAX_CACHE →
      (msgs.foldl cacheMessagesStep c).entries.length ≤ MAX_CACHE by
    exact h emptyTC (by simp [emptyTC, MAX_CACHE])
  induction msgs with
  | nil => intro c hc; simpa using hc
  | cons m rest ih =>
    intro c hc
    simp only [List.foldl_cons]
    apply ih
    unfold cacheMessagesStep
    cases m.message with
    | none => simpa using hc
    | some _ => exact cachePut_length _ _ _ hc

/-! ## Oldest-first eviction (C6) -/

/-- The ghost-time invariant every cache reachable from `new Map()` enjoys:
entries are strictly increasing in first-insertion time, and every recorded
time is below the clock. -/
def timeSorted {K V : Type} (c : TCache K V) : Prop :=
  c.entries.Pairwise (fun a b => a.time < b.time) ∧
    ∀ e ∈ c.entries, e.time < c.clock

lemma timeSorted_empty {K V : Type} : timeSorted (emptyTC (K := K) (V := V)) := by
  constructor
  · simp [emptyTC]
  · simp [emptyTC]

lemma tSet_sorted {K V : Type} [DecidableEq K] (c : TCache K V) (k : K) (v : V)
    (hinv : timeSorted c) :
    (tSet c k v).entries.Pairwise (fun a b => a.time < b.time) := by
  unfold tSet
  split
  · refine (List.pairwise_map).2 (hinv.1.imp ?_)
    intro a b hab
    have ha : (if a.key = k then (⟨k, v, a.time⟩ : TEntry K V) else a).time = a.time := by
      split <;> rfl
    have hb : (if b.key = k then (⟨k, v, b.time⟩ : TEntry K V) else b).time = b.time := by
      split <;> rfl
    simpa [ha, hb] using hab
  · refine (List.pairwise_append).2 ⟨hinv.1, by simp, ?_⟩
    intro a ha b hb
    simp only [List.mem_singleton] at hb
    subst hb
    exact hinv.2 a ha

lemma tSet_timeSorted {K V : Type} [DecidableEq K] (c : TCache K V) (k : K)
    (v : V) (hinv : timeSorted c) : timeSorted (tSet c k v) := by
  refine ⟨tSet_sorted c k v hinv, ?_⟩
  unfold tSet
  split
  · intro e he
    simp only at he ⊢
    obtain ⟨a, ha, rfl⟩ := List.mem_map.1 he
    have : (if a.key = k then (⟨k, v, a.time⟩ : TEntry K V) else a).time = a.time := by
      split <;> rfl
    rw [this]
    exact hinv.2 a ha
  · intro e he
    simp only [List.mem_append, List.mem_singleton] at he
    rcases he with he | rfl
    · exact Nat.lt_succ_of_lt (hinv.2 e he)
    · exact Nat.lt_succ_self _

/-- `cachePut` preserves the ghost-time invariant, so every cache reachable
by ingress traffic from the empty map satisfies `timeSorted`. -/
lemma cachePut_timeSorted {K V : Type} [DecidableEq K] (c : TCache K V)
    (k : K) (v : V) (hinv : timeSorted c) : timeSorted (cachePut c k v) := by
  have h' := tSet_timeSorted c k v hinv
  by_cases hov : MAX_CACHE < (tSet c k v).entries.length
  · rcases hl : (tSet c k v).entries with _ | ⟨fe, t⟩
    · rw [hl] at hov; simp [MAX_CACHE] at hov
    · have hput : cachePut c k v =
          ⟨List.filter (fun e => decide (e.key ≠ fe.key)) (fe :: t),
            (tSet c k v).clock⟩ := by
        unfold cachePut
        simp only [hl, if_pos (hl ▸ hov), List.head?_cons]
      rw [hput]
      constructor
      · exact List.Pairwise.sublist (List.filter_sublist _) (hl ▸ h'.1)
      · intro e he
        have he' : e ∈ List.filter (fun e => decide (e.key ≠ fe.key)) (fe :: t) := he
        exact h'.2 e (hl.symm ▸ List.mem_of_mem_filter he')
  · have hput : cachePut c k v = tSet c k v := by
      unfold cachePut
      simp only [if_neg hov]
    rw [hput]
    exact h'

/-- **C6**: whenever an insertion overflows the cache and evicts, the entry
removed is the head of the insertion-ordered map — the chronologically
oldest entry: its ghost insertion time is `≤` every pre-eviction entry's
time and `<` every remaining entry's time, and no remaining entry carries
its key.  (Never an arbitrary or the newest entry.) -/
theorem evict_oldest {K V : Type} [DecidableEq K] (c : TCache K V) (k : K)
    (v : V) (hinv : timeSorted c)
    (hov : MAX_CACHE < (tSet c k v).entries.length) :
    ∃ fe, (tSet c k v).entries.head? = some fe ∧
      ((tSet c k v).entries.all (fun e => decide (fe.time ≤ e.time)) = true) ∧
      ((cachePut c k v).entries.all (fun e => decide (fe.time < e.time)) = true) ∧
      ((cachePut c k v).entries.all (fun e => decide (e.key ≠ fe.key)) = true) := by
  have hsorted := tSet_sorted c k v hinv
  rcases hl : (tSet c k v).entries with _ | ⟨fe, t⟩
  · rw [hl] at hov; simp [MAX_CACHE] at hov
  · rw [hl] at hsorted
    have hfe_lt : ∀ e ∈ t, fe.time < e.time := (List.pairwise_cons.1 hsorted).1
    have hput : (cachePut c k v).entries =
        List.filter (fun e => decide (e.key ≠ fe.key)) t := by
      unfold cachePut
      simp only [hl, if_pos (hl ▸ hov), List.head?_cons]
      rw [List.filter_cons]
      simp
    refine ⟨fe, by simp [hl], ?_, ?_, ?_⟩
    · rw [List.all_eq_true]
      intro e he
      rcases List.mem_cons.1 he with rfl | he'
      · simp
      · simpa using Nat.le_of_lt (hfe_lt e he')
    · rw [hput, List.all_eq_true]
      intro e he
      simpa using hfe_lt e (List.mem_of_mem_filter he)
    · rw [hput, List.all_eq_true]
      intro e he
      exact (List.mem_filter.1 he).2

/-- A concrete 1000-entry cache (the map after 1000 ingress insertions of
distinct keys `0, …, 999`), used to exercise the eviction theorem. -/
def bigCache : TCache ℕ Unit :=
  ⟨(List.range 1000).map (fun i => ⟨i, (), i⟩), 1000⟩

lemma bigCache_timeSorted : timeSorted bigCache := by
  constructor
  · refine (List.pairwise_map).2 ?_
    exact List.pairwise_lt_range 1000
  · intro e he
    obtain ⟨i, hi, rfl⟩ := List.mem_map.1 he
    exact List.mem_range.1 hi

lemma bigCache_overflow : MAX_CACHE < (tSet bigCache 1000 ()).entries.length := by
  have hany : bigCache.entries.any (fun e => decide (e.key = 1000)) = false := by
    rw [List.any_eq_false]
    intro e he
    obtain ⟨i, hi, rfl⟩ := List.mem_map.1 he
    simp only [decide_eq_true_eq]
    exact Nat.ne_of_lt (List.mem_range.1 hi)
  unfold tSet
  rw [if_neg (by simp [hany])]
  simp [bigCache, MAX_CACHE]

theorem evict_oldest_witness :
    ∃ fe, (tSet bigCache 1000 ()).entries.head? = some fe ∧
      ((tSet bigCache 1000 ()).entries.all (fun e => decide (fe.time ≤ e.time)) = true) ∧
      ((cachePut bigCache 1000 ()).entries.all (fun e => decide (fe.time < e.time)) = true) ∧
      ((cachePut bigCache 1000 ()).entries.all (fun e => decide (e.key ≠ fe.key)) = true) :=
  evict_oldest bigCache 1000 () bigCache_timeSorted bigCache_overflow

/-! ## Reconnect backoff (C7) and the connection-close handler (C2) -/

/-- `Math.min(RECONNECT_DELAY * Math.pow(1.5, reconnectAttempts - 1), 60000)`
(line 317, and again line 573 in the outer catch).  The JS doubles involved
(`5000 * 1.5^(k-1)` for the reachable `k ≤ 11`) are exactly representable,
so `ℚ` is a faithful model. -/
def reconnectDelay (k : ℕ) : ℚ :=
  min (RECONNECT_DELAY * BACKOFF_GROWTH ^ (k - 1)) DELAY_CAP

/-- What the `connection === "close"` branch decides to do
(besides logging). -/
inductive CloseEffect
  | exitProcess
  | reconnectAfter (delay : ℚ)
deriving DecidableEq, Repr

/-- The observable outcome of the `connection === "close"` branch
(lines 292-327): whether the persisted session was wiped, the new value of
`reconnectAttempts`, and whether the process exits or a reconnect is
scheduled. -/
structure CloseResult where
  sessionDeleted : Bool
  reconnectAttempts : ℕ
  effect : CloseEffect
deriving DecidableEq, Repr

/-- The `connection === "close"` branch of the `connection.update` handler
(lines 292-327): on status 401 the sessions directory is removed (lines
299-307), then — with no early return — `reconnectAttempts++` (line 309);
if the counter exceeds `MAX_RECONNECT_ATTEMPTS` the process exits (lines
311-315), otherwise a reconnect is scheduled after the backoff delay
(lines 317-326). -/
def onConnectionClose (statusCode : Option ℕ) (attempts : ℕ) : CloseResult :=
  let deleted := statusCode == some 401
  let a := attempts + 1
  if MAX_RECONNECT_ATTEMPTS < a then ⟨deleted, a, .exitProcess⟩
  else ⟨deleted, a, .reconnectAfter (reconnectDelay a)⟩

/-- **C7**: for every `k ≥ 1` the computed reconnect delay is
`min(5000 * 1.5^(k-1), 60000)` and is monotonically non-decreasing in `k`
(in particular until it reaches the cap, after which it stays there). -/
theorem reconnect_backoff (k : ℕ) (hk : 1 ≤ k) :
    reconnectDelay k = min (5000 * (3 / 2 : ℚ) ^ (k - 1)) 60000 ∧
      reconnectDelay k ≤ reconnectDelay (k + 1) := by
  constructor
  · rfl
  · unfold reconnectDelay
    refine min_le_min ?_ le_rfl
    have hbase : (1 : ℚ) ≤ BACKOFF_GROWTH := by norm_num [BACKOFF_GROWTH]
    have hexp : k - 1 ≤ k + 1 - 1 := by omega
    have hpow : BACKOFF_GROWTH ^ (k - 1) ≤ BACKOFF_GROWTH ^ (k + 1 - 1) :=
      pow_le_pow_right₀ hbase hexp
    have hpos : (0 : ℚ) ≤ RECONNECT_DELAY := by norm_num [RECONNECT_DELAY]
    exact mul_le_mul_of_nonneg_left hpow hpos

theorem reconnect_backoff_witness :
    (1 ≤ 3) ∧
      reconnectDelay 3 = min (5000 * (3 / 2 : ℚ) ^ (3 - 1)) 60000 ∧
      reconnectDelay 3 ≤ reconnectDelay (3 + 1) :=
  ⟨by norm_num, reconnect_backoff 3 (by norm_num)⟩

/-- **C2, counterexample**: a close event with status code 401 at
`reconnectAttempts = 0` wipes the session, but the handler then falls
through to the common reconnect path: the counter IS incremented (to 1) and
a 5000 ms reconnect IS scheduled — the process does not terminate.  This
refutes "the persisted credentials are deleted and the process terminates,
with the reconnect counter never incremented afterward and no reconnect
scheduled". -/
theorem close401_schedules_reconnect_cex :
    onConnectionClose (some 401) 0 =
      ⟨true, 1, .reconnectAfter 5000⟩ := by
  have hdelay : reconnectDelay 1 = 5000 := by
    unfold reconnectDelay
    norm_num [RECONNECT_DELAY, BACKOFF_GROWTH, DELAY_CAP]
  unfold onConnectionClose
  norm_num [MAX_RECONNECT_ATTEMPTS, hdelay]

/-- **C2, amended**: when the connection closes with status 401 the
persisted credentials are wiped, but the handler then behaves exactly like
any other non-open close: the reconnect counter is incremented, the decided
effect is independent of the status code, and as long as the incremented
counter is within `MAX_RECONNECT_ATTEMPTS` a reconnect is scheduled with
the backoff delay (the process exits only on counter exhaustion). -/
theorem close401_behavior (a : ℕ) (code : Option ℕ) :
    (onConnectionClose (some 401) a).sessionDeleted = true ∧
      (onConnectionClose (some 401) a).reconnectAttempts = a + 1 ∧
      (onConnectionClose (some 401) a).effect = (onConnectionClose code a).effect ∧
      (a + 1 ≤ MAX_RECONNECT_ATTEMPTS →
        (onConnectionClose (some 401) a).effect =
          .reconnectAfter (reconnectDelay (a + 1))) := by
  unfold onConnectionClose
  by_cases h : MAX_RECONNECT_ATTEMPTS < a + 1
  · simp only [if_pos h]
    refine ⟨?_, ?_, ?_, fun hle => absurd h (by omega)⟩ <;> simp
  · simp only [if_neg h]
    refine ⟨?_, ?_, ?_, fun hle => ?_⟩ <;> simp

theorem close401_behavior_witness :
    (onConnectionClose (some 401) 2).sessionDeleted = true ∧
      (onConnectionClose (some 401) 2).reconnectAttempts = 3 ∧
      (onConnectionClose (some 401) 2).effect =
        (onConnectionClose (some 500) 2).effect ∧
      (onConnectionClose (some 401) 2).effect =
        .reconnectAfter (reconnectDelay 3) :=
  ⟨(close401_behavior 2 (some 500)).1,
   (close401_behavior 2 (some 500)).2.1,
   (close401_behavior 2 (some 500)).2.2.1,
   (close401_behavior 2 (some 500)).2.2.2 (by norm_num [MAX_RECONNECT_ATTEMPTS])⟩

/-! ## The memory monitor (C3) -/

/-- The observable outcome of one memory-monitor tick: whether the
high-memory warning was logged and whether the process was exited. -/
structure TickResult where
  warned : Bool
  exited : Bool
deriving DecidableEq, Repr

/-- The memory-monitor `setInterval` callback (lines 602-607).  Its body
only samples `process.memoryUsage()` and logs a warning when
`heapUsed > 500 * 1024 * 1024`; it has no access to `messageCache`
(a local of `silvaConnect`), never trims anything and never exits.  The
cache is threaded through to make that observable. -/
def memoryMonitorTick {K V : Type} (heapUsed : ℕ) (cache : TCache K V) :
    TCache K V × TickResult :=
  (cache, ⟨decide (WARN_HEAP_BYTES < heapUsed), false⟩)

/-- The cache produced by 250 ingress insertions of distinct keys
`0, …, 249` — a perfectly reachable cache state that is larger than
20% of `MAX_CACHE`. -/
def cache250 : TCache ℕ Unit :=
  (List.range 250).foldl (fun c i => cachePut c i ()) emptyTC

/-- Folding `cachePut` over `n ≤ MAX_CACHE` distinct fresh keys from the
empty map inserts them all in order, with no eviction. -/
lemma cachePutFold_range (n : ℕ) (hn : n ≤ MAX_CACHE) :
    (List.range n).foldl (fun c i => cachePut c i ()) emptyTC =
      ⟨(List.range n).map (fun i => ⟨i, (), i⟩), n⟩ := by
  induction n with
  | zero => simp [emptyTC]
  | succ m ih =>
    have hm : m ≤ MAX_CACHE := by omega
    rw [List.range_succ, List.foldl_append, ih hm]
    simp only [List.foldl_cons, List.foldl_nil]
    have hany : (((List.range m).map
          (fun i => (⟨i, (), i⟩ : TEntry ℕ Unit))).any
        (fun e => decide (e.key = m))) = false := by
      rw [List.any_eq_false]
      intro e he
      obtain ⟨i, hi, rfl⟩ := List.mem_map.1 he
      simp only [decide_eq_true_eq]
      exact Nat.ne_of_lt (List.mem_range.1 hi)
    have hset : tSet (⟨(List.range m).map (fun i => ⟨i, (), i⟩), m⟩ :
          TCache ℕ Unit) m () =
        ⟨(List.range (m + 1)).map (fun i => ⟨i, (), i⟩), m + 1⟩ := by
      unfold tSet
      rw [if_neg (by simp [hany])]
      simp [List.range_succ]
    simp only [cachePut, hset]
    rw [if_neg (by
      have hn' : m + 1 ≤ 1000 := hn
      simp only [List.length_map, List.length_range, MAX_CACHE]
      omega)]
    rw [List.range_succ]

lemma cache250_eq : cache250 = ⟨(List.range 250).map (fun i => ⟨i, (), i⟩), 250⟩ :=
  cachePutFold_range 250 (by norm_num [MAX_CACHE])

lemma memoryMonitorTick_fst {K V : Type} (heapUsed : ℕ) (c : TCache K V) :
    (memoryMonitorTick heapUsed c).1 = c := rfl

/-- **C3, counterexample**: on a tick sampling 600 MB (above the 500 MB
warning threshold; the code has no separate critical threshold), the
250-entry cache is left completely untouched — its size stays 250, which
exceeds 20% of `MAX_CACHE` (= 200).  The process indeed does not exit, but
no trimming of any kind happens, refuting "the cache is trimmed so that
its size after the tick is at most 20% of MAX_CACHE". -/
theorem watchdog_no_trim_cex :
    WARN_HEAP_BYTES < 600 * 1024 * 1024 ∧
      (memoryMonitorTick (600 * 1024 * 1024) cache250).2.exited = false ∧
      (memoryMonitorTick (600 * 1024 * 1024) cache250).1.entries.length = 250 ∧
      MAX_CACHE / 5 < 250 := by
  refine ⟨by norm_num [WARN_HEAP_BYTES], rfl, ?_, by norm_num [MAX_CACHE]⟩
  rw [memoryMonitorTick_fst, cache250_eq]
  simp

/-- **C3, amended**: a memory-monitor tick never modifies the cache and
never exits the process, whatever the sampled heap size; its only effect
is the warning log, emitted exactly when the sample exceeds the 500 MB
threshold. -/
theorem watchdog_only_logs {K V : Type} (heapUsed : ℕ) (cache : TCache K V) :
    (memoryMonitorTick heapUsed cache).1 = cache ∧
      (memoryMonitorTick heapUsed cache).2.exited = false ∧
      (memoryMonitorTick heapUsed cache).2.warned =
        decide (WARN_HEAP_BYTES < heapUsed) :=
  ⟨rfl, rfl, rfl⟩

/-! ## The ingress dispatcher (C5)

`processMessageQueue` (lines 352-373) runs single-flight: the guard
`if (isProcessing || messageQueue.length === 0) return;` makes a second
start a no-op; otherwise it sets `isProcessing = true`, `shift()`s the
head of the queue, `await`s the external handler on it, and in `finally`
resets `isProcessing` and reschedules itself.  The `messages.upsert`
handler (lines 420-442) appends (`push`) each keyed message and then calls
`processMessageQueue()`.  The async suspension at the `await` is the split
between `start` (guard + dequeue, up to the `await`) and `finish` (the
`finally` block); `enqueue` events may interleave at the suspension
point. -/

/-- The dispatcher state: the pending queue, the `isProcessing` flag, the
message currently being handled (as a list, so that "at most one
invocation in flight" is a theorem rather than a typing artifact), and the
messages already handed to the external handler, in invocation order. -/
structure DState (M : Type) where
  queue : List M
  isProcessing : Bool
  inFlight : List M
  handled : List M
deriving DecidableEq, Repr

/-- The three event kinds acting on the dispatcher. -/
inductive DEvent (M : Type)
  | enqueue (m : M)
  | start
  | finish
deriving DecidableEq, Repr

/-- The dispatcher transition function.  `enqueue` is
`messageQueue.push(msg)` (line 426); `start` is `processMessageQueue` up
to its `await` (lines 353-356); `finish` is the completion of the
`await`ed handler plus the `finally` block (lines 368-372). -/
def dstep {M : Type} (s : DState M) : DEvent M → DState M
  | .enqueue m => { s with queue := s.queue ++ [m] }
  | .start =>
    if s.isProcessing then s
    else
      match s.queue with
      | [] => s
      | m :: rest =>
        { queue := rest, isProcessing := true, inFlight := [m],
          handled := s.handled }
  | .finish =>
    match s.inFlight with
    | [] => s
    | m :: _ =>
      { queue := s.queue, isProcessing := false, inFlight := [],
        handled := s.handled ++ [m] }

/-- The dispatcher's initial state (lines 349-350). -/
def initDState {M : Type} : DState M := ⟨[], false, [], []⟩

/-- The messages appended by a list of events, in order. -/
def enqueuedOf {M : Type} (evs : List (DEvent M)) : List M :=
  evs.filterMap (fun e => match e with | .enqueue m => some m | _ => none)

/-- The dispatcher invariant: at most one message in flight, none when the
`isProcessing` flag is clear. -/
def DInv {M : Type} (s : DState M) : Prop :=
  s.inFlight.length ≤ 1 ∧ (s.isProcessing = false → s.inFlight = [])

lemma dstep_inv {M : Type} (s : DState M) (e : DEvent M) (h : DInv s) :
    DInv (dstep s e) := by
  rcases e with m | _ | _
  · exact h
  · unfold dstep
    by_cases hp : s.isProcessing
    · rw [if_pos hp]; exact h
    · rw [if_neg hp]
      rcases hq : s.queue with _ | ⟨m, rest⟩
      · exact h
      · exact ⟨by simp, by simp⟩
  · unfold dstep
    rcases hf : s.inFlight with _ | ⟨m, fls⟩
    · exact h
    · exact ⟨by simp, fun _ => rfl⟩

lemma dstep_order {M : Type} (s : DState M) (e : DEvent M) (h : DInv s) :
    (dstep s e).handled ++ (dstep s e).inFlight ++ (dstep s e).queue =
      s.handled ++ s.inFlight ++ s.queue ++ enqueuedOf [e] := by
  rcases e with m | _ | _
  · simp [dstep, enqueuedOf, List.append_assoc]
  · unfold dstep
    by_cases hp : s.isProcessing
    · rw [if_pos hp]; simp [enqueuedOf]
    · rw [if_neg hp]
      have hfl : s.inFlight = [] := h.2 (by simpa using hp)
      rcases hq : s.queue with _ | ⟨m, rest⟩
      · simp [hq, enqueuedOf]
      · simp [hfl, enqueuedOf]
  · unfold dstep
    rcases hf : s.inFlight with _ | ⟨m, fls⟩
    · simp [hf, enqueuedOf]
    · have : fls = [] := by
        have := h.1
        rw [hf] at this
        simpa using this
      subst this
      simp [hf, enqueuedOf]

lemma dsteps_inv_order {M : Type} (evs : List (DEvent M)) :
    ∀ s : DState M, DInv s →
      DInv (evs.foldl dstep s) ∧
        (evs.foldl dstep s).handled ++ (evs.foldl dstep s).inFlight ++
            (evs.foldl dstep s).queue =
          s.handled ++ s.inFlight ++ s.queue ++ enqueuedOf evs := by
  induction evs with
  | nil => intro s hs; simpa [enqueuedOf] using hs
  | cons e rest ih =>
    intro s hs
    simp only [List.foldl_cons]
    obtain ⟨h1, h2⟩ := ih (dstep s e) (dstep_inv s e hs)
    refine ⟨h1, ?_⟩
    rw [h2, dstep_order s e hs]
    rcases e with m | _ | _ <;> simp [enqueuedOf, List.append_assoc]

/-- **C5**: (re-entrancy) a `start` while `isProcessing` is set is a no-op;
and for any interleaving of enqueue/start/finish events from the initial
state, at most one handler invocation is ever in flight, and the messages
handed to the handler (`handled`, in invocation order) followed by the one
in flight and the still-queued ones are exactly the enqueued messages in
FIFO order — so handler invocations happen one at a time, in queue
order. -/
theorem dispatcher_fifo_single_flight :
    (∀ s : DState ℕ, s.isProcessing = true → dstep s .start = s) ∧
      ∀ evs : List (DEvent ℕ),
        (evs.foldl dstep initDState).inFlight.length ≤ 1 ∧
          (evs.foldl dstep initDState).handled ++
              (evs.foldl dstep initDState).inFlight ++
              (evs.foldl dstep initDState).queue =
            enqueuedOf evs := by
  constructor
  · intro s hp
    unfold dstep
    rw [if_pos hp]
  · intro evs
    obtain ⟨h1, h2⟩ := dsteps_inv_order evs initDState ⟨by simp [initDState], by simp [initDState]⟩
    refine ⟨h1.1, ?_⟩
    rw [h2]
    simp [initDState]

theorem dispatcher_fifo_single_flight_witness :
    dstep (⟨[5], true, [], []⟩ : DState ℕ) .start = ⟨[5], true, [], []⟩ ∧
      (([DEvent.enqueue 1, .start, .enqueue 2, .finish, .start,
          .finish].foldl dstep initDState).inFlight.length ≤ 1 ∧
        ([DEvent.enqueue 1, .start, .enqueue 2, .finish, .start,
            .finish].foldl dstep initDState).handled ++
            ([DEvent.enqueue 1, .start, .enqueue 2, .finish, .start,
                .finish].foldl dstep initDState).inFlight ++
            ([DEvent.enqueue 1, .start, .enqueue 2, .finish, .start,
                .finish].foldl dstep initDState).queue =
          enqueuedOf [DEvent.enqueue 1, .start, .enqueue 2, .finish, .start,
            .finish]) :=
  ⟨dispatcher_fifo_single_flight.1 ⟨[5], true, [], []⟩ rfl,
   dispatcher_fifo_single_flight.2
     [DEvent.enqueue 1, .start, .enqueue 2, .finish, .start, .finish]⟩

/-! ## The deletion-event throttle (C8) -/

/-- One element of the `updates` array passed to the `messages.update`
handler: its key and whether `update.message === null` (content explicitly
cleared). -/
structure MsgUpdate where
  key : WAKey
  messageCleared : Bool
deriving DecidableEq, Repr

/-- The per-update filter of the loop body (line 457):
`update?.message === null && !key.fromMe`. -/
def deletionCandidate (u : MsgUpdate) : Bool :=
  u.messageCleared && !u.key.fromMe

/-- One invocation of the `messages.update` handler (lines 448-464):
`now = Date.now()`; if `now - lastDeleteProcess < DELETE_PROCESS_INTERVAL`
the whole batch is skipped (not deferred); otherwise `lastDeleteProcess`
is set to `now` and every deletion candidate in the batch is processed
immediately.  Returns the new `lastDeleteProcess` and the processed
updates. -/
def messagesUpdateHandler (now lastDeleteProcess : ℕ)
    (updates : List MsgUpdate) : ℕ × List MsgUpdate :=
  if now - lastDeleteProcess < DELETE_PROCESS_INTERVAL then
    (lastDeleteProcess, [])
  else
    (now, updates.filter deletionCandidate)

/-- Folding a trace of handler invocations `(timestamp, batch)` from the
initial `lastDeleteProcess = 0` (line 445), accumulating the processed
updates stamped with the invocation time. -/
def runUpdatesStep (st : ℕ × List (ℕ × MsgUpdate)) (ev : ℕ × List MsgUpdate) :
    ℕ × List (ℕ × MsgUpdate) :=
  ((messagesUpdateHandler ev.1 st.1 ev.2).1,
    st.2 ++ (messagesUpdateHandler ev.1 st.1 ev.2).2.map (fun u => (ev.1, u)))

def runUpdates (evs : List (ℕ × List MsgUpdate)) : ℕ × List (ℕ × MsgUpdate) :=
  evs.foldl runUpdatesStep (0, [])

/-- Two deletion updates for the running counterexample. -/
def delU1 : MsgUpdate := ⟨⟨"c1", "m1", none, false⟩, true⟩

def delU2 : MsgUpdate := ⟨⟨"c1", "m2", none, false⟩, true⟩

/-- **C8, counterexample**: a burst of two deletion events arriving in a
single `messages.update` batch (one handler invocation at t = 5000 ms) is
processed in one pass — both recoveries run at the same instant, with an
inter-processing interval of 0 ms, not the claimed 1-2 seconds. -/
theorem deletion_burst_same_tick_cex :
    runUpdates [(5000, [delU1, delU2])] =
      (5000, [(5000, delU1), (5000, delU2)]) := by
  decide

/-- The separation relation on processed (timestamp, update) pairs, in
trace order: a later processed pair either shares its invocation's
timestamp or is at least `DELETE_PROCESS_INTERVAL` later. -/
def throttleSep (a b : ℕ × MsgUpdate) : Prop :=
  a.1 = b.1 ∨ a.1 + DELETE_PROCESS_INTERVAL ≤ b.1

instance : DecidableRel throttleSep := fun a b => by
  unfold throttleSep; infer_instance

lemma pairwise_of_total {α : Type} (R : α → α → Prop) (h : ∀ a b, R a b) :
    ∀ l : List α, l.Pairwise R := by
  intro l
  induction l with
  | nil => exact List.Pairwise.nil
  | cons x xs ih => exact List.Pairwise.cons (fun b _ => h x b) ih

lemma runUpdates_aux (evs : List (ℕ × List MsgUpdate)) :
    ∀ (st : ℕ) (acc : List (ℕ × MsgUpdate)),
      acc.Pairwise throttleSep → (∀ p ∈ acc, p.1 ≤ st) →
      (evs.foldl runUpdatesStep (st, acc)).2.Pairwise throttleSep ∧
        ∀ p ∈ (evs.foldl runUpdatesStep (st, acc)).2,
          p.1 ≤ (evs.foldl runUpdatesStep (st, acc)).1 := by
  induction evs with
  | nil => intro st acc h1 h2; exact ⟨h1, h2⟩
  | cons ev rest ih =>
    intro st acc h1 h2
    simp only [List.foldl_cons]
    by_cases hg : ev.1 - st < DELETE_PROCESS_INTERVAL
    · have hstep : runUpdatesStep (st, acc) ev = (st, acc) := by
        unfold runUpdatesStep messagesUpdateHandler
        rw [if_pos hg]
        simp
      rw [hstep]
      exact ih st acc h1 h2
    · have hnow : st + DELETE_PROCESS_INTERVAL ≤ ev.1 := by
        unfold DELETE_PROCESS_INTERVAL at hg ⊢
        omega
      have hstep : runUpdatesStep (st, acc) ev =
          (ev.1, acc ++ (ev.2.filter deletionCandidate).map (fun u => (ev.1, u))) := by
        unfold runUpdatesStep messagesUpdateHandler
        rw [if_neg hg]
      rw [hstep]
      apply ih
      · rw [List.pairwise_append]
        refine ⟨h1, ?_, ?_⟩
        · exact (List.pairwise_map).2
            (pairwise_of_total _ (fun a b => Or.inl rfl) _)
        · intro a ha b hb
          obtain ⟨u, _, rfl⟩ := List.mem_map.1 hb
          exact Or.inr (by
            have := h2 a ha
            unfold DELETE_PROCESS_INTERVAL at hnow ⊢
            omega)
      · intro p hp
        rcases List.mem_append.1 hp with h | h
        · exact le_trans (h2 p h) (by omega)
        · obtain ⟨u, _, rfl⟩ := List.mem_map.1 h
          exact le_refl _

/-- **C8, amended**: the throttle works at handler-invocation granularity:
an invocation arriving within `DELETE_PROCESS_INTERVAL` (2000 ms) of the
last processed one is skipped entirely (its deletions are dropped, not
deferred), and any two processed updates either belong to the same
invocation (identical timestamp, zero spacing) or are at least 2000 ms
apart.  No spacing is applied within a batch. -/
theorem deletion_throttle_invocations :
    (∀ (now lastDP : ℕ) (ups : List MsgUpdate),
        now < lastDP + DELETE_PROCESS_INTERVAL →
          messagesUpdateHandler now lastDP ups = (lastDP, [])) ∧
      ∀ evs : List (ℕ × List MsgUpdate),
        (runUpdates evs).2.Pairwise throttleSep := by
  constructor
  · intro now lastDP ups h
    unfold messagesUpdateHandler
    rw [if_pos (by unfold DELETE_PROCESS_INTERVAL at h ⊢; omega)]
  · intro evs
    exact (runUpdates_aux evs 0 [] List.Pairwise.nil (by simp)).1

theorem deletion_throttle_invocations_witness :
    messagesUpdateHandler 1500 0 [delU1] = (0, []) ∧
      (runUpdates [(5000, [delU1]), (6000, [delU2]), (8000, [delU2])]).2.Pairwise
        throttleSep :=
  ⟨deletion_throttle_invocations.1 1500 0 [delU1] (by norm_num [DELETE_PROCESS_INTERVAL]),
   deletion_throttle_invocations.2 [(5000, [delU1]), (6000, [delU2]), (8000, [delU2])]⟩

/-! ## The deletion-recovery pipeline (C4, C9, C10) -/

/-- The payload of one `sock.sendMessage(dest, payload)` call: either a
text payload or a media payload (field name, accumulated byte count, and
the optional `caption` / `mimetype` / `fileName` fields). -/
inductive SendContent
  | text (t : String)
  | media (field : String) (bytes : ℕ) (caption mimetype fileName : Option String)
deriving DecidableEq, Repr

/-- One outbound message: destination jid and payload. -/
structure Send where
  dest : String
  content : SendContent
deriving DecidableEq, Repr

/-- JS truthiness of an optional string field (`if (x) …`): absent and
empty strings are falsy. -/
def jsStr : Option String → Option String
  | some s => if s = "" then none else some s
  | none => none

/-- `handleMediaRecovery` (lines 521-554): re-download the media stream,
concatenating every chunk with **no size check**, then re-send it to the
owner with the same media kind, copying `caption` / `mimetype` (and
`fileName` for documents) when truthy.  A download failure is caught and
reported to the owner as a "could not be reuploaded" text. -/
def handleMediaRecovery (owner : String) (mt : MediaType) (p : MediaPayload) :
    List Send :=
  match p.failMsg with
  | some e =>
    [⟨owner, .text ("⚠️ Recovered media could not be reuploaded: " ++ e)⟩]
  | none =>
    let buffer := p.chunks.foldl (· + ·) 0
    [⟨owner, .media (mediaFieldName mt) buffer (jsStr p.caption) (jsStr p.mimetype)
        (if mt = MediaType.document then jsStr p.filename else none)⟩]

/-- `handleDeletedMessage` (lines 467-518): look the deletion key up in
the cache; on a miss send the owner one "could not be recovered" notice;
on a hit send the owner the anti-delete header and then the reconstructed
content (text directly — with the `||`-fallback `"[Text message]"` for an
empty string —, media via `handleMediaRecovery`, anything else as an
"unsupported type" note).  All sends go to `sock.user.id` (the owner);
the cache is only read (`messageCache.get`), never written. -/
def handleDeletedMessage (owner : String) (key : WAKey)
    (messageCache : TCache String WAMessage) :
    TCache String WAMessage × List Send :=
  let cacheKey := key.remoteJid ++ "-" ++ key.id
  match tGet messageCache cacheKey with
  | none =>
    (messageCache,
      [⟨owner, .text ("🚨 A message was deleted in *" ++ key.remoteJid ++
        "*, but it could not be recovered.")⟩])
  | some om =>
    match om.message with
    | none =>
      (messageCache,
        [⟨owner, .text ("🚨 A message was deleted in *" ++ key.remoteJid ++
          "*, but it could not be recovered.")⟩])
    | some content =>
      let sender := key.participant.getD key.remoteJid
      let header : Send :=
        ⟨owner, .text ("🚨 *Anti-Delete Triggered!*\n👤 *Sender:* " ++ sender ++
          "\n💬 *Chat:* " ++ key.remoteJid ++ "\n📎 *Recovered message below ↓*")⟩
      match content with
      | .conversation t =>
        (messageCache,
          [header, ⟨owner, .text (if t = "" then "[Text message]" else t)⟩])
      | .extendedTextMessage t =>
        (messageCache,
          [header, ⟨owner, .text (if t = "" then "[Text message]" else t)⟩])
      | .mediaMessage mt p =>
        (messageCache, header :: handleMediaRecovery owner mt p)
      | .otherMessage n =>
        (messageCache,
          [header, ⟨owner, .text ("📦 Recovered (unsupported type: " ++ n ++ ").")⟩])

/-- The body of the `messages.update` loop for one update (lines 455-459):
`handleDeletedMessage` runs exactly when the content was explicitly
cleared and the deletion was not self-initiated. -/
def processUpdateEntry (owner : String)
    (messageCache : TCache String WAMessage) (u : MsgUpdate) : List Send :=
  if deletionCandidate u then (handleDeletedMessage owner u.key messageCache).2
  else []

/-- Boolean "is a prefix of" on character lists. -/
def prefixOfB : List Char → List Char → Bool
  | [], _ => true
  | _ :: _, [] => false
  | a :: as, b :: bs => a == b && prefixOfB as bs

/-- Boolean "occurs as a contiguous segment of". -/
def containsSeg (pat : List Char) : List Char → Bool
  | [] => prefixOfB pat []
  | b :: bs => prefixOfB pat (b :: bs) || containsSeg pat bs

/-- `s` contains `pat` as a substring. -/
def strHas (s pat : String) : Bool := containsSeg pat.data s.data

/-- Whether an outbound payload contains the given text (in its text body
or, for media, in its caption). -/
def sendHasText (pat : String) (s : Send) : Bool :=
  match s.content with
  | .text t => strHas t pat
  | .media _ _ cap _ _ =>
    match cap with
    | some t => strHas t pat
    | none => false

/-- **C4**: with a cached text message `"hello"` under key `(c1, m1)`, a
non-self-initiated deletion event for `(c1, m1)` produces exactly one
owner-directed send containing `"hello"` (the anti-delete header does not
contain it), and no send at all addressed to the original chat `c1`. -/
theorem recovery_roundtrip_text (owner : String)
    (messageCache : TCache String WAMessage) (m : WAMessage)
    (hown : owner ≠ "c1")
    (hget : tGet messageCache "c1-m1" = some m)
    (hmsg : m.message = some (.conversation "hello")) :
    (processUpdateEntry owner messageCache
          ⟨⟨"c1", "m1", none, false⟩, true⟩).countP
        (fun s => decide (s.dest = owner) && sendHasText "hello" s) = 1 ∧
      (processUpdateEntry owner messageCache
            ⟨⟨"c1", "m1", none, false⟩, true⟩).countP
          (fun s => decide (s.dest = "c1")) = 0 := by
  have hkey : ("c1" : String) ++ "-" ++ "m1" = "c1-m1" := rfl
  have hsends : processUpdateEntry owner messageCache
        ⟨⟨"c1", "m1", none, false⟩, true⟩ =
      [⟨owner, .text "🚨 *Anti-Delete Triggered!*\n👤 *Sender:* c1\n💬 *Chat:* c1\n📎 *Recovered message below ↓*"⟩,
        ⟨owner, .text "hello"⟩] := by
    unfold processUpdateEntry deletionCandidate handleDeletedMessage
    simp [hkey, hget, hmsg]
  rw [hsends]
  have hhdr : sendHasText "hello"
      (⟨owner, .text "🚨 *Anti-Delete Triggered!*\n👤 *Sender:* c1\n💬 *Chat:* c1\n📎 *Recovered message below ↓*"⟩ : Send) = false := by
    show strHas "🚨 *Anti-Delete Triggered!*\n👤 *Sender:* c1\n💬 *Chat:* c1\n📎 *Recovered message below ↓*" "hello" = false
    decide
  have hhello : sendHasText "hello" (⟨owner, .text "hello"⟩ : Send) = true := by
    show strHas "hello" "hello" = true
    decide
  constructor
  · simp [List.countP_cons, hhdr, hhello]
  · simp [List.countP_cons, hown]

/-- A one-entry cache holding the `"hello"` message under key `"c1-m1"`. -/
def helloCache : TCache String WAMessage :=
  ⟨[⟨"c1-m1", ⟨⟨"c1", "m1", none, false⟩, some (.conversation "hello")⟩, 0⟩], 1⟩

theorem recovery_roundtrip_text_witness :
    (processUpdateEntry "owner@s.whatsapp.net" helloCache
          ⟨⟨"c1", "m1", none, false⟩, true⟩).countP
        (fun s => decide (s.dest = "owner@s.whatsapp.net") &&
          sendHasText "hello" s) = 1 ∧
      (processUpdateEntry "owner@s.whatsapp.net" helloCache
            ⟨⟨"c1", "m1", none, false⟩, true⟩).countP
          (fun s => decide (s.dest = "c1")) = 0 :=
  recovery_roundtrip_text "owner@s.whatsapp.net" helloCache
    ⟨⟨"c1", "m1", none, false⟩, some (.conversation "hello")⟩
    (by decide) (by decide) rfl

/-- **C10**: a deletion recovery never mutates the cache: the cache after
`handleDeletedMessage` is the input cache (in particular the looked-up
entry is still present, unchanged), so running the same deletion event a
second time produces the identical recovery sends again. -/
theorem recovery_frame (owner : String) (key : WAKey)
    (messageCache : TCache String WAMessage) :
    (handleDeletedMessage owner key messageCache).1 = messageCache ∧
      tGet (handleDeletedMessage owner key messageCache).1
          (key.remoteJid ++ "-" ++ key.id) =
        tGet messageCache (key.remoteJid ++ "-" ++ key.id) ∧
      handleDeletedMessage owner key
          ((handleDeletedMessage owner key messageCache).1) =
        handleDeletedMessage owner key messageCache := by
  have h1 : (handleDeletedMessage owner key messageCache).1 = messageCache := by
    unfold handleDeletedMessage
    rcases hg : tGet messageCache (key.remoteJid ++ "-" ++ key.id) with _ | om
    · simp [hg]
    · rcases hm : om.message with _ | content
      · simp [hg, hm]
      · rcases content with t | t | ⟨mt, p⟩ | n <;> simp [hg, hm]
  exact ⟨h1, by rw [h1], by rw [h1]⟩

/-! ## The media size ceiling (C9) -/

/-- One step of the status-saver download loop in `saveMediaToDisk`
(lines 144-151): concatenate the chunk, then
`if (buffer.length > 50 * 1024 * 1024) throw new Error('File too large')`;
a raised error absorbs the rest of the stream. -/
def mediaAccumStep (acc : Except String ℕ) (c : ℕ) : Except String ℕ :=
  match acc with
  | .error e => .error e
  | .ok b =>
    if MEDIA_SIZE_LIMIT < b + c then .error "File too large" else .ok (b + c)

/-- The accumulated download of `saveMediaToDisk` over the chunk sizes of
the stream. -/
def saveMediaAccum (chunks : List ℕ) : Except String ℕ :=
  chunks.foldl mediaAccumStep (.ok 0)

/-- `saveMediaToDisk` (lines 137-172) returns the saved size, or `none`
when the download threw (the `catch` returns `null`).  Only the
accumulation/limit behavior is modelled; the disk write is out of
scope. -/
def saveMediaToDisk (chunks : List ℕ) : Option ℕ :=
  match saveMediaAccum chunks with
  | .ok b => some b
  | .error _ => none

lemma mediaAccum_error (chunks : List ℕ) (e : String) :
    chunks.foldl mediaAccumStep (.error e) = .error e := by
  induction chunks with
  | nil => rfl
  | cons c cs ih => simpa [mediaAccumStep] using ih

lemma mediaAccum_go (chunks : List ℕ) :
    ∀ b : ℕ, b ≤ MEDIA_SIZE_LIMIT →
      chunks.foldl mediaAccumStep (.ok b) =
        if b + chunks.sum ≤ MEDIA_SIZE_LIMIT then Except.ok (b + chunks.sum)
        else Except.error "File too large" := by
  induction chunks with
  | nil =>
    intro b hb
    simp [if_pos hb]
  | cons c cs ih =>
    intro b hb
    simp only [List.foldl_cons, List.sum_cons]
    by_cases hover : MEDIA_SIZE_LIMIT < b + c
    · have hred : mediaAccumStep (.ok b) c =
          if MEDIA_SIZE_LIMIT < b + c then Except.error "File too large"
          else Except.ok (b + c) := rfl
      rw [hred, if_pos hover, mediaAccum_error, if_neg (by omega)]
    · have hred : mediaAccumStep (.ok b) c =
          if MEDIA_SIZE_LIMIT < b + c then Except.error "File too large"
          else Except.ok (b + c) := rfl
      rw [hred, if_neg hover, ih (b + c) (by omega)]
      have harith : b + c + cs.sum = b + (c + cs.sum) := by omega
      rw [harith]

/-- **C9, counterexample**: a deletion-recovery re-download whose stream
totals `MEDIA_SIZE_LIMIT + 1` bytes (50 MB + 1) is neither refused nor
truncated — `handleMediaRecovery` re-uploads the full oversized buffer to
the owner.  The 50 MB ceiling exists only on the status-saver path, where
the same stream makes `saveMediaToDisk` fail. -/
theorem media_recovery_unbounded_cex :
    handleMediaRecovery "owner@s.whatsapp.net" .image
        ⟨[MEDIA_SIZE_LIMIT, 1], none, none, none, none⟩ =
      [⟨"owner@s.whatsapp.net",
        .media "image" (MEDIA_SIZE_LIMIT + 1) none none none⟩] ∧
      MEDIA_SIZE_LIMIT < MEDIA_SIZE_LIMIT + 1 ∧
      saveMediaToDisk [MEDIA_SIZE_LIMIT, 1] = none := by
  refine ⟨?_, by omega, ?_⟩
  · unfold handleMediaRecovery
    simp [mediaFieldName, jsStr]
  · unfold saveMediaToDisk saveMediaAccum
    simp [mediaAccumStep, mediaAccum_error]

/-- **C9, amended**: the 50 MB size ceiling lives only in the status-saver
path: `saveMediaAccum` succeeds with the full size exactly when the stream
total is `≤ MEDIA_SIZE_LIMIT` and otherwise throws "File too large",
whereas the deletion-recovery path `handleMediaRecovery` accumulates and
re-uploads the entire stream (`chunks.sum` bytes) with no ceiling at
all. -/
theorem media_limit_status_saver_only :
    (∀ chunks : List ℕ,
        saveMediaAccum chunks =
          if chunks.sum ≤ MEDIA_SIZE_LIMIT then Except.ok chunks.sum
          else Except.error "File too large") ∧
      ∀ (owner : String) (mt : MediaType) (chunks : List ℕ)
        (cap mty fn : Option String),
        handleMediaRecovery owner mt ⟨chunks, cap, mty, fn, none⟩ =
          [⟨owner, .media (mediaFieldName mt) chunks.sum (jsStr cap)
              (jsStr mty)
              (if mt = MediaType.document then jsStr fn else none)⟩] := by
  constructor
  · intro chunks
    have := mediaAccum_go chunks 0 (Nat.zero_le _)
    simpa [saveMediaAccum] using this
  · intro owner mt chunks cap mty fn
    unfold handleMediaRecovery
    simp [List.sum_eq_foldl]

end Silva
